import Mathlib

/-!
Shallow embedding of the `rational_geometry` fixed-denominator rational
number library, and proofs about it.

The embedded design is the `FixedRational<SignedIntT, kDenominator,
kDoThrowOnInexact>` class template together with its helpers
(`PartialDivisionResult`, the two `partial_division` overloads), the
integer utilities `abs`/`gcd` from `common_factor.hpp`, and the
`unrepresentable_operation_error` exception class.

Modelling conventions:
- C++ signed integers are modelled as `Int`; C++ `/` and `%` on signed
  integers truncate toward zero, so they are modelled with `Int.tdiv` and
  `Int.tmod`.
- C++ integer division by zero is undefined behaviour, so every code path
  that could divide by zero is guarded and returns `none`
  (`Option`-valued definitions).
- A throwing operation is modelled as returning
  `Except unrepresentable_operation_error _`; the compile-time
  `kDoThrowOnInexact` template flag becomes a `Bool` parameter.
- The compile-time denominator `kDenominator` becomes an `Int` parameter
  `D` of the `FixedRational` structure.
-/

namespace rational_geometry

/-- C++ `abs` from `common_factor.hpp`:
`value >= 0 ? value : -value`. -/
def abs (value : Int) : Int :=
  if value ≥ 0 then value else -value

/-- C++ `gcd` from `common_factor.hpp`: Euclid's algorithm with the C++
truncated remainder, the result passed through `abs`:
`return abs(0 == b ? a : gcd(b, a % b));`.  Its totality in Lean is the
termination claim for all (mathematical) signed integers. -/
def gcd (a b : Int) : Int :=
  rational_geometry.abs (if 0 = b then a else gcd b (Int.tmod a b))
termination_by b.natAbs
decreasing_by
  rename_i h
  have habs : (Int.tmod a b).natAbs = a.natAbs % b.natAbs := by
    cases a <;> cases b <;>
      simp only [Int.tmod, Int.natAbs_ofNat, Int.natAbs_neg, Int.natAbs_negSucc,
        Nat.succ_eq_add_one] <;> rfl
  rw [habs]
  exact Nat.mod_lt _ (Int.natAbs_pos.mpr fun hb => h hb.symm)

/-- Modelled from the spec: `lcm` is called by
`unrepresentable_operation_error::accumulate_fix_factor` but no definition
of it appears in the repository's headers; the spec specifies
`lcm(a,b) = abs(a*b)/gcd(a,b)`, guarded so that `lcm(a,0) = 0`. -/
def lcm (a b : Int) : Int :=
  if a = 0 ∨ b = 0 then 0
  else (rational_geometry.abs (a * b)).tdiv (gcd a b)

/-- `PartialDivisionResult<IntT>` from the `FixedRational` header. -/
structure PartialDivisionResult where
  partial_result_ : Int
  remaining_divisor_ : Int
deriving DecidableEq

/-- `PartialDivisionResult::full_division()`:
`return partial_result_ / remaining_divisor_;` — guarded because C++
division by a zero `remaining_divisor_` is undefined behaviour. -/
def PartialDivisionResult.full_division (r : PartialDivisionResult) : Option Int :=
  if r.remaining_divisor_ = 0 then none
  else some (r.partial_result_.tdiv r.remaining_divisor_)

/-- The single-pair `partial_division(top_int, bottom_int)` overload:
`common_factor = gcd(top_int, bottom_int);
return {top_int / common_factor, bottom_int / common_factor};` — guarded
because when both arguments are zero the gcd is zero and the C++ code
divides by zero (undefined behaviour). -/
def partial_division (top_int bottom_int : Int) : Option PartialDivisionResult :=
  let common_factor := gcd top_int bottom_int
  if common_factor = 0 then none
  else some ⟨top_int.tdiv common_factor, bottom_int.tdiv common_factor⟩

/-- The `std::accumulate` left fold inside the sequence overload of
`partial_division`: each numerator is reduced against the current
remaining divisor, the reduced numerator is multiplied into the running
partial result, and the new remaining divisor is carried forward. -/
def partial_division_fold : List Int → PartialDivisionResult → Option PartialDivisionResult
  | [], so_far => some so_far
  | current_numerator :: rest, so_far =>
    match partial_division current_numerator so_far.remaining_divisor_ with
    | none => none
    | some current_result =>
      partial_division_fold rest
        ⟨current_result.partial_result_ * so_far.partial_result_,
          current_result.remaining_divisor_⟩

/-- The sequence overload `partial_division(top_ints, bottom_int)`: fold
over the numerators starting from the pair `{1, bottom_int}`. -/
def partial_division_seq (top_ints : List Int) (bottom_int : Int) :
    Option PartialDivisionResult :=
  partial_division_fold top_ints ⟨1, bottom_int⟩

/-- `unrepresentable_operation_error<IntT>` (newest draft): a
`std::domain_error` carrying `minimum_fix_factor_`. -/
structure unrepresentable_operation_error where
  what_arg : String
  minimum_fix_factor_ : Int
deriving DecidableEq

/-- The `unrepresentable_operation_error` constructor:
`minimum_fix_factor_{operation_divisor / gcd(operation_numerator, operation_divisor)}`. -/
def unrepresentable_operation_error.make (what_arg : String)
    (operation_numerator operation_divisor : Int) : unrepresentable_operation_error :=
  ⟨what_arg, operation_divisor.tdiv (gcd operation_numerator operation_divisor)⟩

/-- Accessor `get_minimum_fix_factor()`. -/
def unrepresentable_operation_error.get_minimum_fix_factor
    (e : unrepresentable_operation_error) : Int :=
  e.minimum_fix_factor_

/-- `accumulate_fix_factor(IntT& running_accumulation)`: reset the
accumulator to 1 when it is nonpositive, then fold in this violation's
fix factor through `lcm`.  The C++ mutates its by-reference argument; the
model returns the new accumulator value. -/
def unrepresentable_operation_error.accumulate_fix_factor
    (e : unrepresentable_operation_error) (running_accumulation : Int) : Int :=
  let r := if running_accumulation ≤ 0 then 1 else running_accumulation
  lcm r e.get_minimum_fix_factor

/-- Decidable equality for `Except` results, so that concrete runs of the
embedded operations can be checked by `decide`. -/
instance instDecidableEqExcept {e a : Type} [DecidableEq e] [DecidableEq a] :
    DecidableEq (Except e a) := fun x y =>
  match x, y with
  | Except.error u, Except.error v =>
    if h : u = v then isTrue (by rw [h]) else isFalse (by simp [h])
  | Except.ok u, Except.ok v =>
    if h : u = v then isTrue (by rw [h]) else isFalse (by simp [h])
  | Except.error _, Except.ok _ => isFalse (fun h => Except.noConfusion h)
  | Except.ok _, Except.error _ => isFalse (fun h => Except.noConfusion h)

/-- `FixedRational<SignedIntT, kDenominator, kDoThrowOnInexact>`: the sole
run-time state is `numerator_`; the compile-time denominator becomes the
parameter `D`, and the throw flag is passed to each fallible operation. -/
structure FixedRational (D : Int) where
  numerator_ : Int
deriving DecidableEq

/-- Accessor `numerator()`. -/
def FixedRational.numerator {D : Int} (r : FixedRational D) : Int :=
  r.numerator_

/-- Accessor `denominator()`: the compile-time constant. -/
def FixedRational.denominator {D : Int} (_ : FixedRational D) : Int :=
  D

/-- The `FixedRational(IntT numerator, IntT denominator)` constructor: keep
the numerator when the denominator already matches, otherwise reduce
`[numerator, D]` against the denominator; throw when inexactness detection
is on and a non-unit divisor remains, otherwise store `full_division()`. -/
def FixedRational.from_fraction (D : Int) (kDoThrowOnInexact : Bool)
    (numerator denominator : Int) :
    Option (Except unrepresentable_operation_error (FixedRational D)) :=
  if denominator = D then some (Except.ok ⟨numerator⟩)
  else
    match partial_division_seq [numerator, D] denominator with
    | none => none
    | some result =>
      if kDoThrowOnInexact = true ∧ result.remaining_divisor_ ≠ 1 then
        some (Except.error (unrepresentable_operation_error.make
          "Inexact construction of a FixedRational"
          result.partial_result_ result.remaining_divisor_))
      else
        match result.full_division with
        | none => none
        | some q => some (Except.ok ⟨q⟩)

/-- `operator*(FixedRational, FixedRational)` (same instantiation):
reduce the numerator product against `D`, throw on a non-unit remaining
divisor when detection is on, else store `full_division()`. -/
def FixedRational.mul (D : Int) (kDoThrowOnInexact : Bool)
    (l_op r_op : FixedRational D) :
    Option (Except unrepresentable_operation_error (FixedRational D)) :=
  match partial_division_seq [l_op.numerator_, r_op.numerator_] D with
  | none => none
  | some result =>
    if kDoThrowOnInexact = true ∧ result.remaining_divisor_ ≠ 1 then
      some (Except.error (unrepresentable_operation_error.make
        "Inexact operation in FixedRational * FixedRational"
        result.partial_result_ result.remaining_divisor_))
    else
      match result.full_division with
      | none => none
      | some q => some (Except.ok ⟨q⟩)

/-- `operator/(FixedRational, FixedRational)` (same instantiation):
reduce `[l.numerator_, D]` against `r.numerator_`. -/
def FixedRational.div (D : Int) (kDoThrowOnInexact : Bool)
    (l_op r_op : FixedRational D) :
    Option (Except unrepresentable_operation_error (FixedRational D)) :=
  match partial_division_seq [l_op.numerator_, D] r_op.numerator_ with
  | none => none
  | some result =>
    if kDoThrowOnInexact = true ∧ result.remaining_divisor_ ≠ 1 then
      some (Except.error (unrepresentable_operation_error.make
        "Inexact operation in FixedRational / FixedRational"
        result.partial_result_ result.remaining_divisor_))
    else
      match result.full_division with
      | none => none
      | some q => some (Except.ok ⟨q⟩)

/-- `operator/(IntT_l, FixedRational)`: reduce `[l_op, D, D]` against
`r_op.numerator_`. -/
def FixedRational.int_div (D : Int) (kDoThrowOnInexact : Bool)
    (l_op : Int) (r_op : FixedRational D) :
    Option (Except unrepresentable_operation_error (FixedRational D)) :=
  match partial_division_seq [l_op, D, D] r_op.numerator_ with
  | none => none
  | some result =>
    if kDoThrowOnInexact = true ∧ result.remaining_divisor_ ≠ 1 then
      some (Except.error (unrepresentable_operation_error.make
        "Inexact operation in IntT / FixedRational"
        result.partial_result_ result.remaining_divisor_))
    else
      match result.full_division with
      | none => none
      | some q => some (Except.ok ⟨q⟩)

/-- `operator<(FixedRational, IntT_r)` with overflow protections: compare
truncated quotients first, then break the tie through `partial_division`.
`Option`-valued because the tie-break can divide by `gcd(0, 0) = 0`. -/
def FixedRational.lt_int (D : Int) (l_op : FixedRational D) (r_op : Int) : Option Bool :=
  if l_op.numerator_.tdiv D < r_op then some true
  else if r_op < l_op.numerator_.tdiv D then some false
  else
    match partial_division_seq [r_op, D] l_op.numerator_ with
    | none => none
    | some ret => some (decide (ret.remaining_divisor_ < ret.partial_result_))

/-- `operator<(IntT_l, FixedRational)` with overflow protections. -/
def FixedRational.int_lt (D : Int) (l_op : Int) (r_op : FixedRational D) : Option Bool :=
  if l_op < r_op.numerator_.tdiv D then some true
  else if r_op.numerator_.tdiv D < l_op then some false
  else
    match partial_division_seq [l_op, D] r_op.numerator_ with
    | none => none
    | some ret => some (decide (ret.partial_result_ < ret.remaining_divisor_))

/-- `operator>(FixedRational l, IntT_r r)` is `r < l`. -/
def FixedRational.gt_int (D : Int) (l_op : FixedRational D) (r_op : Int) : Option Bool :=
  FixedRational.int_lt D r_op l_op

/-- `operator>(IntT_l l, FixedRational r)` is `r < l`. -/
def FixedRational.int_gt (D : Int) (l_op : Int) (r_op : FixedRational D) : Option Bool :=
  FixedRational.lt_int D r_op l_op

/-- `operator<=(FixedRational l, IntT_r r)` is `!(r < l)`. -/
def FixedRational.le_int (D : Int) (l_op : FixedRational D) (r_op : Int) : Option Bool :=
  (FixedRational.int_lt D r_op l_op).map Bool.not

/-- `operator<=(IntT_l l, FixedRational r)` is `!(r < l)`. -/
def FixedRational.int_le (D : Int) (l_op : Int) (r_op : FixedRational D) : Option Bool :=
  (FixedRational.lt_int D r_op l_op).map Bool.not

/-- `operator>=(FixedRational l, IntT_r r)` is `!(l < r)`. -/
def FixedRational.ge_int (D : Int) (l_op : FixedRational D) (r_op : Int) : Option Bool :=
  (FixedRational.lt_int D l_op r_op).map Bool.not

/-- `operator>=(IntT_l l, FixedRational r)` is `!(l < r)`. -/
def FixedRational.int_ge (D : Int) (l_op : Int) (r_op : FixedRational D) : Option Bool :=
  (FixedRational.int_lt D l_op r_op).map Bool.not

/-! Helper lemmas about the embedded definitions. -/

/-- `Int.tmod` takes its absolute value from truncated remainders, matching
C++ `%` on `natAbs`. -/
theorem natAbs_tmod (a b : Int) : (Int.tmod a b).natAbs = a.natAbs % b.natAbs := by
  cases a <;> cases b <;>
    simp only [Int.tmod, Int.natAbs_ofNat, Int.natAbs_neg, Int.natAbs_negSucc,
      Nat.succ_eq_add_one] <;> rfl

theorem abs_eq_natAbs (a : Int) : rational_geometry.abs a = (a.natAbs : Int) := by
  unfold rational_geometry.abs
  rcases le_or_lt 0 a with h | h
  · rw [if_pos h, Int.natAbs_of_nonneg h]
  · rw [if_neg (not_le.mpr h), Int.ofNat_natAbs_of_nonpos h.le]

/-- The repository's `gcd` agrees with the mathematical `Int.gcd`. -/
theorem gcd_eq_intGcd (a b : Int) : gcd a b = (Int.gcd a b : Int) := by
  generalize hm : b.natAbs = m
  induction m using Nat.strong_induction_on generalizing a b with
  | _ m ih =>
    rw [gcd]
    by_cases hb : 0 = b
    · subst hb
      simp [abs_eq_natAbs, Int.gcd]
    · rw [if_neg hb]
      have hlt : (Int.tmod a b).natAbs < m := by
        rw [natAbs_tmod, hm]
        exact Nat.mod_lt _ (hm ▸ Int.natAbs_pos.mpr fun h => hb h.symm)
      rw [ih _ hlt b (Int.tmod a b) rfl, abs_eq_natAbs, Int.natAbs_ofNat]
      unfold Int.gcd
      rw [natAbs_tmod]
      rw [Nat.gcd_comm b.natAbs _, ← Nat.gcd_rec, Nat.gcd_comm]


theorem gcd_nonneg (a b : Int) : 0 ≤ gcd a b := by
  rw [gcd_eq_intGcd]
  exact Int.natCast_nonneg _

/-- The single-pair `partial_division` fully reduces its fraction: both
fields are exact quotients by the gcd, and they are coprime. -/
theorem partial_division_spec (top bottom : Int) (h : bottom ≠ 0) :
    ∃ pr rd : Int,
      partial_division top bottom = some ⟨pr, rd⟩ ∧
      rd ≠ 0 ∧
      pr * (Int.gcd top bottom : Int) = top ∧
      rd * (Int.gcd top bottom : Int) = bottom ∧
      Int.gcd pr rd = 1 ∧
      (0 < bottom → 0 < rd) := by
  have hg0 : (0 : Int) < (Int.gcd top bottom : Int) := by
    exact_mod_cast Int.gcd_pos_of_ne_zero_right top h
  have hgeq : gcd top bottom = (Int.gcd top bottom : Int) := gcd_eq_intGcd top bottom
  have hgne : gcd top bottom ≠ 0 := by rw [hgeq]; exact ne_of_gt hg0
  have hdl : ((Int.gcd top bottom : Int)) ∣ top := Int.gcd_dvd_left
  have hdr : ((Int.gcd top bottom : Int)) ∣ bottom := Int.gcd_dvd_right
  have hprg : top.tdiv (gcd top bottom) * (Int.gcd top bottom : Int) = top := by
    rw [hgeq]; exact Int.tdiv_mul_cancel hdl
  have hrdg : bottom.tdiv (gcd top bottom) * (Int.gcd top bottom : Int) = bottom := by
    rw [hgeq]; exact Int.tdiv_mul_cancel hdr
  refine ⟨top.tdiv (gcd top bottom), bottom.tdiv (gcd top bottom), ?_, ?_, hprg, hrdg, ?_, ?_⟩
  · simp only [partial_division, if_neg hgne]
  · intro hz
    rw [hz, zero_mul] at hrdg
    exact h hrdg.symm
  · have hmul : Int.gcd (top.tdiv (gcd top bottom) * (Int.gcd top bottom : Int))
        (bottom.tdiv (gcd top bottom) * (Int.gcd top bottom : Int)) =
        Int.gcd (top.tdiv (gcd top bottom)) (bottom.tdiv (gcd top bottom)) *
          (Int.gcd top bottom : Int).natAbs :=
      Int.gcd_mul_right _ _ _
    rw [hprg, hrdg] at hmul
    have hnat : (Int.gcd top bottom : Int).natAbs = Int.gcd top bottom := by
      simp
    rw [hnat] at hmul
    have hpos : 0 < Int.gcd top bottom := by exact_mod_cast hg0
    nlinarith [hmul]
  · intro hbpos
    by_contra hle
    push_neg at hle
    have : bottom.tdiv (gcd top bottom) * (Int.gcd top bottom : Int) ≤ 0 :=
      mul_nonpos_of_nonpos_of_nonneg hle hg0.le
    rw [hrdg] at this
    exact absurd hbpos (not_lt.mpr this)

/-- Invariant of the `std::accumulate` fold inside the sequence overload:
starting from a state with a nonzero remaining divisor coprime to the
running partial result, the fold succeeds and keeps the invariant, the
remaining divisor only shrinks (by divisibility), and the represented
fraction times the initial state is preserved. -/
theorem partial_division_fold_spec (ns : List Int) (st : PartialDivisionResult)
    (h0 : st.remaining_divisor_ ≠ 0)
    (hcop : Int.gcd st.partial_result_ st.remaining_divisor_ = 1) :
    ∃ res : PartialDivisionResult,
      partial_division_fold ns st = some res ∧
      res.remaining_divisor_ ≠ 0 ∧
      res.remaining_divisor_ ∣ st.remaining_divisor_ ∧
      res.partial_result_ * st.remaining_divisor_ =
        ns.prod * st.partial_result_ * res.remaining_divisor_ ∧
      Int.gcd res.partial_result_ res.remaining_divisor_ = 1 ∧
      (0 < st.remaining_divisor_ → 0 < res.remaining_divisor_) := by
  induction ns generalizing st with
  | nil =>
    exact ⟨st, rfl, h0, dvd_rfl, by simp, hcop, fun h => h⟩
  | cons c rest ih =>
    obtain ⟨pr, rd, hpd, hrd0, hprg, hrdg, hcop2, hpos⟩ :=
      partial_division_spec c st.remaining_divisor_ h0
    have hdvd : rd ∣ st.remaining_divisor_ := ⟨_, hrdg.symm⟩
    have hcop1 :
        Int.gcd (pr * st.partial_result_) rd = 1 := by
      rw [Int.gcd_eq_one_iff_coprime] at hcop hcop2 ⊢
      exact IsCoprime.mul_left hcop2 ((hcop.of_isCoprime_of_dvd_right hdvd))
    obtain ⟨res, hfold, h1, h2, h3, h4, h5⟩ :=
      ih ⟨pr * st.partial_result_, rd⟩ hrd0 hcop1
    refine ⟨res, ?_, h1, h2.trans hdvd, ?_, h4, fun hp => h5 (hpos hp)⟩
    · simp only [partial_division_fold, hpd]
      exact hfold
    · simp only at h3
      calc res.partial_result_ * st.remaining_divisor_
          = res.partial_result_ * (rd * (Int.gcd c st.remaining_divisor_ : Int)) := by
            rw [hrdg]
        _ = (res.partial_result_ * rd) * (Int.gcd c st.remaining_divisor_ : Int) := by
            ring
        _ = (rest.prod * (pr * st.partial_result_) * res.remaining_divisor_) *
              (Int.gcd c st.remaining_divisor_ : Int) := by
            rw [h3]
        _ = rest.prod * (pr * (Int.gcd c st.remaining_divisor_ : Int)) *
              st.partial_result_ * res.remaining_divisor_ := by
            ring
        _ = rest.prod * c * st.partial_result_ * res.remaining_divisor_ := by
            rw [hprg]
        _ = (c :: rest).prod * st.partial_result_ * res.remaining_divisor_ := by
            rw [List.prod_cons]; ring

/-- Specification of the sequence overload `partial_division(ns, b)` for a
nonzero divisor: it succeeds, its result represents `ns.prod / b` exactly
(cross-multiplied form), is fully reduced, and its remaining divisor
divides `b` and keeps `b`'s positivity. -/
theorem partial_division_seq_spec (ns : List Int) (b : Int) (hb : b ≠ 0) :
    ∃ res : PartialDivisionResult,
      partial_division_seq ns b = some res ∧
      res.remaining_divisor_ ≠ 0 ∧
      res.remaining_divisor_ ∣ b ∧
      res.partial_result_ * b = ns.prod * res.remaining_divisor_ ∧
      Int.gcd res.partial_result_ res.remaining_divisor_ = 1 ∧
      (0 < b → 0 < res.remaining_divisor_) := by
  obtain ⟨res, h, h1, h2, h3, h4, h5⟩ :=
    partial_division_fold_spec ns ⟨1, b⟩ hb (by simp [Int.gcd])
  refine ⟨res, h, h1, h2, ?_, h4, h5⟩
  simpa using h3

/-- Transfer of divisibility through the reduced pair: when
`pr * b = P * rd` with `pr` and `rd` coprime and `b ≠ 0`, divisibility of
`P * m` by `b` is controlled exactly by `rd ∣ m`. -/
theorem dvd_iff_remaining_dvd (pr rd b P m : Int) (hb : b ≠ 0)
    (heq : pr * b = P * rd) (hcop : Int.gcd pr rd = 1) :
    b ∣ P * m ↔ rd ∣ m := by
  constructor
  · rintro ⟨k, hk⟩
    have hcancel : pr * m = k * rd := by
      have hbig : b * (pr * m) = b * (k * rd) := by
        calc b * (pr * m) = (pr * b) * m := by ring
          _ = (P * rd) * m := by rw [heq]
          _ = (P * m) * rd := by ring
          _ = (b * k) * rd := by rw [hk]
          _ = b * (k * rd) := by ring
      exact mul_left_cancel₀ hb hbig
    have hdvd : rd ∣ m * pr := ⟨k, by linarith [hcancel]⟩
    have hco : IsCoprime (rd : Int) pr := by
      rw [← Int.gcd_eq_one_iff_coprime, Int.gcd_comm]
      exact hcop
    exact hco.dvd_of_dvd_mul_right hdvd
  · rintro ⟨t, ht⟩
    refine ⟨pr * t, ?_⟩
    calc P * m = P * (rd * t) := by rw [ht]
      _ = (P * rd) * t := by ring
      _ = (pr * b) * t := by rw [heq]
      _ = b * (pr * t) := by ring

/-- A truncated quotient reproduces the exact fraction iff the divisor
divides the dividend. -/
theorem tdiv_exact_iff_dvd (pr rd : Int) (hrd : rd ≠ 0) :
    ((pr.tdiv rd : Int) : ℚ) = (pr : ℚ) / (rd : ℚ) ↔ rd ∣ pr := by
  constructor
  · intro h
    have hrdq : (rd : ℚ) ≠ 0 := Int.cast_ne_zero.mpr hrd
    have hq : ((pr.tdiv rd : Int) : ℚ) * (rd : ℚ) = (pr : ℚ) := by
      rw [h]; field_simp
    have hz : (pr.tdiv rd) * rd = pr := by exact_mod_cast hq
    exact ⟨pr.tdiv rd, by linarith [hz]⟩
  · rintro ⟨c, rfl⟩
    rw [Int.mul_tdiv_cancel_left _ hrd]
    have hrdq : (rd : ℚ) ≠ 0 := Int.cast_ne_zero.mpr hrd
    push_cast
    field_simp

/-- Equal fractions have equal euclidean quotients (positive divisors). -/
theorem ediv_congr_of_cross_eq (a c : Int) {b d : Int} (hb : 0 < b) (hd : 0 < d)
    (h : a * d = c * b) : a / b = c / d := by
  rw [← Int.mul_ediv_mul_of_pos a b hd, ← Int.mul_ediv_mul_of_pos c d hb]
  have h1 : d * a = b * c := by linarith [h]
  have h2 : d * b = b * d := by ring
  rw [h1, h2]

/-- Equal fractions have equal truncated quotients: nonnegative dividend,
positive divisors. -/
theorem tdiv_congr_nonneg {a b c d : Int} (ha : 0 ≤ a) (hb : 0 < b) (hd : 0 < d)
    (h : a * d = c * b) : a.tdiv b = c.tdiv d := by
  have hc : 0 ≤ c := by nlinarith [h, mul_nonneg ha hd.le]
  rw [Int.tdiv_eq_ediv ha hb.le, Int.tdiv_eq_ediv hc hd.le]
  exact ediv_congr_of_cross_eq a c hb hd h

/-- Equal fractions have equal truncated quotients (positive divisors). -/
theorem tdiv_congr_pos {a b c d : Int} (hb : 0 < b) (hd : 0 < d)
    (h : a * d = c * b) : a.tdiv b = c.tdiv d := by
  rcases le_or_lt 0 a with ha | ha
  · exact tdiv_congr_nonneg ha hb hd h
  · have hneg : (-a) * d = (-c) * b := by linarith [h]
    have := tdiv_congr_nonneg (a := -a) (c := -c) (by linarith) hb hd hneg
    rw [Int.neg_tdiv, Int.neg_tdiv] at this
    exact neg_injective this

/-- Equal fractions (cross-multiplied) have equal truncated quotients. -/
theorem tdiv_congr (a b c d : Int) (hb : b ≠ 0) (hd : d ≠ 0) (h : a * d = c * b) :
    a.tdiv b = c.tdiv d := by
  rcases hb.lt_or_lt with hbneg | hbpos <;> rcases hd.lt_or_lt with hdneg | hdpos
  · have h2 : (-a) * (-d) = (-c) * (-b) := by ring_nf; linarith [h]
    have := tdiv_congr_pos (a := -a) (b := -b) (c := -c) (d := -d)
      (by linarith) (by linarith) h2
    rwa [Int.neg_tdiv_neg, Int.neg_tdiv_neg] at this
  · have h2 : (-a) * d = c * (-b) := by linarith [h]
    have := tdiv_congr_pos (a := -a) (b := -b) (c := c) (d := d)
      (by linarith) hdpos h2
    rwa [Int.neg_tdiv_neg] at this
  · have h2 : a * (-d) = (-c) * b := by linarith [h]
    have := tdiv_congr_pos (a := a) (b := b) (c := -c) (d := -d)
      hbpos (by linarith) h2
    rwa [Int.neg_tdiv_neg] at this
  · exact tdiv_congr_pos hbpos hdpos h


/-! Claim theorems. -/

/-- C7: the repository's `gcd` is a total function on all signed integers
(its Lean definition is total, which is the termination claim) and returns
the non-negative greatest common divisor: it is non-negative, `gcd a 0`
is `abs a`, it is symmetric, it divides both arguments, every common
divisor divides it, and it agrees with the mathematical `Int.gcd`. -/
theorem C7_gcd_total_nonneg_abs_comm (a b : Int) :
    0 ≤ gcd a b ∧
    gcd a 0 = rational_geometry.abs a ∧
    gcd a b = gcd b a ∧
    gcd a b ∣ a ∧
    gcd a b ∣ b ∧
    (∀ c : Int, c ∣ a → c ∣ b → c ∣ gcd a b) ∧
    gcd a b = (Int.gcd a b : Int) := by
  refine ⟨gcd_nonneg a b, ?_, ?_, ?_, ?_, ?_, gcd_eq_intGcd a b⟩
  · rw [gcd_eq_intGcd, abs_eq_natAbs]
    simp [Int.gcd]
  · rw [gcd_eq_intGcd, gcd_eq_intGcd, Int.gcd_comm]
  · rw [gcd_eq_intGcd]
    exact Int.gcd_dvd_left
  · rw [gcd_eq_intGcd]
    exact Int.gcd_dvd_right
  · intro c h1 h2
    rw [gcd_eq_intGcd]
    exact Int.dvd_gcd h1 h2

/-- C9: for a positive divisor `b`, the pair returned by the sequence
overload of `partial_division` is fully reduced: the remaining divisor is
positive, divides `b`, and is coprime to the partial result (their `gcd`
is 1), so no further cancellation between the two fields is possible. -/
theorem C9_seq_result_fully_reduced (ns : List Int) (b : Int) (hb : 0 < b) :
    ∃ res : PartialDivisionResult,
      partial_division_seq ns b = some res ∧
      0 < res.remaining_divisor_ ∧
      res.remaining_divisor_ ∣ b ∧
      gcd res.partial_result_ res.remaining_divisor_ = 1 := by
  obtain ⟨res, h, h1, h2, h3, h4, h5⟩ := partial_division_seq_spec ns b (ne_of_gt hb)
  refine ⟨res, h, h5 hb, h2, ?_⟩
  rw [gcd_eq_intGcd, h4]
  rfl

/-- Witness for C9 at the concrete input `ns = [4, 8]`, `b = 12`. -/
theorem C9_witness :
    (0 : Int) < 12 ∧
    ∃ res : PartialDivisionResult,
      partial_division_seq [4, 8] 12 = some res ∧
      0 < res.remaining_divisor_ ∧
      res.remaining_divisor_ ∣ 12 ∧
      gcd res.partial_result_ res.remaining_divisor_ = 1 :=
  ⟨by norm_num, C9_seq_result_fully_reduced [4, 8] 12 (by norm_num)⟩

/-- C5: for a nonzero divisor `b`, the sequence overload succeeds and the
returned pair represents exactly `(ns.prod) / b` — in cross-multiplied
form and as rational numbers — and every permutation of the numerators
yields the same mathematical fraction. -/
theorem C5_seq_exact_and_permutation_invariant (ns : List Int) (b : Int) (hb : b ≠ 0) :
    ∃ res : PartialDivisionResult,
      partial_division_seq ns b = some res ∧
      res.partial_result_ * b = ns.prod * res.remaining_divisor_ ∧
      (res.partial_result_ : ℚ) / (res.remaining_divisor_ : ℚ) =
        (ns.prod : ℚ) / (b : ℚ) ∧
      ∀ ns2 : List Int, ns.Perm ns2 →
        ∃ res2 : PartialDivisionResult,
          partial_division_seq ns2 b = some res2 ∧
          (res2.partial_result_ : ℚ) / (res2.remaining_divisor_ : ℚ) =
            (res.partial_result_ : ℚ) / (res.remaining_divisor_ : ℚ) := by
  obtain ⟨res, h, h1, h2, h3, h4, h5⟩ := partial_division_seq_spec ns b hb
  have hq : (res.partial_result_ : ℚ) / (res.remaining_divisor_ : ℚ) =
      (ns.prod : ℚ) / (b : ℚ) := by
    rw [div_eq_div_iff (Int.cast_ne_zero.mpr h1) (Int.cast_ne_zero.mpr hb)]
    exact_mod_cast h3
  refine ⟨res, h, h3, hq, ?_⟩
  intro ns2 hperm
  obtain ⟨res2, g, g1, g2, g3, g4, g5⟩ := partial_division_seq_spec ns2 b hb
  refine ⟨res2, g, ?_⟩
  have hq2 : (res2.partial_result_ : ℚ) / (res2.remaining_divisor_ : ℚ) =
      (ns2.prod : ℚ) / (b : ℚ) := by
    rw [div_eq_div_iff (Int.cast_ne_zero.mpr g1) (Int.cast_ne_zero.mpr hb)]
    exact_mod_cast g3
  rw [hq2, hq, hperm.prod_eq]

/-- Witness for C5 at the concrete input `ns = [4, 8]`, `b = 12`. -/
theorem C5_witness :
    (12 : Int) ≠ 0 ∧
    ∃ res : PartialDivisionResult,
      partial_division_seq [4, 8] 12 = some res ∧
      res.partial_result_ * 12 = [4, 8].prod * res.remaining_divisor_ ∧
      (res.partial_result_ : ℚ) / (res.remaining_divisor_ : ℚ) =
        (([4, 8].prod : Int) : ℚ) / ((12 : Int) : ℚ) ∧
      ∀ ns2 : List Int, [4, 8].Perm ns2 →
        ∃ res2 : PartialDivisionResult,
          partial_division_seq ns2 12 = some res2 ∧
          (res2.partial_result_ : ℚ) / (res2.remaining_divisor_ : ℚ) =
            (res.partial_result_ : ℚ) / (res.remaining_divisor_ : ℚ) :=
  ⟨by norm_num, C5_seq_exact_and_permutation_invariant [4, 8] 12 (by norm_num)⟩

/-- C1: with throwing disabled, every inexact operation silently stores
the truncated `full_division()` value of its `partial_division` result —
for construction with `d ≠ D` this stored numerator equals the truncated
quotient `(n*D)/d` (in particular whenever `d` does not divide `n*D`) —
and same-type multiplication and division likewise return
`Except.ok` of the truncated `full_division()`, never an error. -/
theorem C1_nonthrowing_truncates (D n d : Int) (hD : 0 < D) (hd : d ≠ 0) (hdD : d ≠ D) :
    (∃ res : PartialDivisionResult,
      partial_division_seq [n, D] d = some res ∧
      res.full_division = some (res.partial_result_.tdiv res.remaining_divisor_) ∧
      FixedRational.from_fraction D false n d =
        some (Except.ok ⟨res.partial_result_.tdiv res.remaining_divisor_⟩)) ∧
    FixedRational.from_fraction D false n d = some (Except.ok ⟨(n * D).tdiv d⟩) ∧
    (∀ l r : FixedRational D,
      ∃ res : PartialDivisionResult,
        partial_division_seq [l.numerator_, r.numerator_] D = some res ∧
        FixedRational.mul D false l r =
          some (Except.ok ⟨res.partial_result_.tdiv res.remaining_divisor_⟩)) ∧
    (∀ l r : FixedRational D, r.numerator_ ≠ 0 →
      ∃ res : PartialDivisionResult,
        partial_division_seq [l.numerator_, D] r.numerator_ = some res ∧
        FixedRational.div D false l r =
          some (Except.ok ⟨res.partial_result_.tdiv res.remaining_divisor_⟩)) := by
  have hDne : D ≠ 0 := ne_of_gt hD
  obtain ⟨res, h, h1, h2, h3, h4, h5⟩ := partial_division_seq_spec [n, D] d hd
  have hful : res.full_division =
      some (res.partial_result_.tdiv res.remaining_divisor_) := by
    simp [PartialDivisionResult.full_division, h1]
  have hff : FixedRational.from_fraction D false n d =
      some (Except.ok ⟨res.partial_result_.tdiv res.remaining_divisor_⟩) := by
    simp only [FixedRational.from_fraction, if_neg hdD, h, Bool.false_eq_true, false_and,
      if_false, hful]
  refine ⟨⟨res, h, hful, hff⟩, ?_, ?_, ?_⟩
  · have hprod : ([n, D] : List Int).prod = n * D := by simp
    rw [hprod] at h3
    have heq := tdiv_congr res.partial_result_ res.remaining_divisor_ (n * D) d h1 hd h3
    rw [hff, heq]
  · intro l r
    obtain ⟨res2, g, g1, g2, g3, g4, g5⟩ :=
      partial_division_seq_spec [l.numerator_, r.numerator_] D hDne
    have gful : res2.full_division =
        some (res2.partial_result_.tdiv res2.remaining_divisor_) := by
      simp [PartialDivisionResult.full_division, g1]
    refine ⟨res2, g, ?_⟩
    simp only [FixedRational.mul, g, Bool.false_eq_true, false_and, if_false, gful]
  · intro l r hr
    obtain ⟨res2, g, g1, g2, g3, g4, g5⟩ :=
      partial_division_seq_spec [l.numerator_, D] r.numerator_ hr
    have gful : res2.full_division =
        some (res2.partial_result_.tdiv res2.remaining_divisor_) := by
      simp [PartialDivisionResult.full_division, g1]
    refine ⟨res2, g, ?_⟩
    simp only [FixedRational.div, g, Bool.false_eq_true, false_and, if_false, gful]

/-- Witness for C1 at the concrete input `D = 12`, `n = 3`, `d = 17`
(where `17` does not divide `3 * 12`): the silently stored numerator is
the truncated quotient `(3*12)/17 = 2`. -/
theorem C1_witness :
    (0 : Int) < 12 ∧ (17 : Int) ≠ 0 ∧ (17 : Int) ≠ 12 ∧
    FixedRational.from_fraction 12 false 3 17 =
      some (Except.ok ⟨((3 * 12 : Int)).tdiv 17⟩) :=
  ⟨by norm_num, by norm_num, by norm_num,
    (C1_nonthrowing_truncates 12 3 17 (by norm_num) (by norm_num) (by norm_num)).2.1⟩

/-- In throwing mode, constructing `n/d` (`d > 0`, `E > 0`) at denominator
`E` succeeds (returns `Except.ok`) iff `d` divides `n * E`. -/
theorem from_fraction_ok_iff_dvd (E n d : Int) (hE : 0 < E) (hd : 0 < d) :
    (∃ x, FixedRational.from_fraction E true n d = some (Except.ok x)) ↔ d ∣ n * E := by
  by_cases hdE : d = E
  · subst hdE
    constructor
    · intro _
      exact ⟨n, mul_comm n d⟩
    · intro _
      exact ⟨⟨n⟩, by simp [FixedRational.from_fraction]⟩
  · obtain ⟨res, h, h1, h2, h3, h4, h5⟩ := partial_division_seq_spec [n, E] d (ne_of_gt hd)
    have hprod : ([n, E] : List Int).prod = n * E := by simp
    rw [hprod] at h3
    have hrdpos : 0 < res.remaining_divisor_ := h5 hd
    have hdvd_iff : d ∣ (n * E) * 1 ↔ res.remaining_divisor_ ∣ 1 :=
      dvd_iff_remaining_dvd res.partial_result_ res.remaining_divisor_ d (n * E) 1
        (ne_of_gt hd) h3 h4
    rw [mul_one] at hdvd_iff
    by_cases hrd1 : res.remaining_divisor_ = 1
    · refine ⟨fun _ => ?_, fun _ => ?_⟩
      · rw [hdvd_iff, hrd1]
      · refine ⟨⟨res.partial_result_.tdiv res.remaining_divisor_⟩, ?_⟩
        simp only [FixedRational.from_fraction, if_neg hdE, h]
        rw [if_neg]
        · simp [PartialDivisionResult.full_division, h1]
        · rintro ⟨-, hne⟩
          exact hne hrd1
    · have herr : FixedRational.from_fraction E true n d = some (Except.error
          (unrepresentable_operation_error.make "Inexact construction of a FixedRational"
            res.partial_result_ res.remaining_divisor_)) := by
        simp only [FixedRational.from_fraction, if_neg hdE, h]
        simp [hrd1]
      refine ⟨fun hx => ?_, fun hdd => ?_⟩
      · obtain ⟨x, hx⟩ := hx
        rw [herr] at hx
        simp at hx
      · exact absurd (Int.eq_one_of_dvd_one (le_of_lt hrdpos) (hdvd_iff.mp hdd)) hrd1

/-- Concrete evaluation: `from_fraction(3, 17)` on `D = 12` with throwing
enabled raises the construction error, whose fix factor is 17. -/
theorem from_fraction_12_3_17 :
    FixedRational.from_fraction 12 true 3 17 =
      some (Except.error ⟨"Inexact construction of a FixedRational", 17⟩) := by
  simp [FixedRational.from_fraction, partial_division_seq, partial_division_fold,
    partial_division, gcd_eq_intGcd, unrepresentable_operation_error.make,
    PartialDivisionResult.full_division]
  norm_num

/-- C3: whenever the throwing constructor raises the exactness error, the
error's `get_minimum_fix_factor()` is `operation_divisor /
gcd(operation_numerator, operation_divisor)` computed from the
`partial_division` result at construction, and this value is exactly the
minimal positive multiplier `m` such that repeating the identical
construction at denominator `m*D` is exact; in particular
`from_fraction(3, 17)` at `D = 12` raises an error whose minimum fix
factor is 17. -/
theorem C3_fix_factor_formula_and_minimal (D n d : Int)
    (e : unrepresentable_operation_error) (hD : 0 < D) (hd : 0 < d)
    (herr : FixedRational.from_fraction D true n d = some (Except.error e)) :
    (∃ res : PartialDivisionResult,
      partial_division_seq [n, D] d = some res ∧
      e.get_minimum_fix_factor =
        res.remaining_divisor_.tdiv (gcd res.partial_result_ res.remaining_divisor_) ∧
      e.get_minimum_fix_factor = res.remaining_divisor_) ∧
    0 < e.get_minimum_fix_factor ∧
    (∀ m : Int, 0 < m →
      ((∃ x, FixedRational.from_fraction (m * D) true n d = some (Except.ok x)) ↔
        e.get_minimum_fix_factor ∣ m)) ∧
    (∃ x, FixedRational.from_fraction (e.get_minimum_fix_factor * D) true n d =
      some (Except.ok x)) ∧
    (∀ m : Int, 0 < m →
      (∃ x, FixedRational.from_fraction (m * D) true n d = some (Except.ok x)) →
      e.get_minimum_fix_factor ≤ m) ∧
    (∃ e2 : unrepresentable_operation_error,
      FixedRational.from_fraction 12 true 3 17 = some (Except.error e2) ∧
      e2.get_minimum_fix_factor = 17) := by
  have hdD : d ≠ D := by
    intro hdd
    rw [hdd] at herr
    simp [FixedRational.from_fraction] at herr
  obtain ⟨res, h, h1, h2, h3, h4, h5⟩ := partial_division_seq_spec [n, D] d (ne_of_gt hd)
  have hprod : ([n, D] : List Int).prod = n * D := by simp
  rw [hprod] at h3
  have hrdpos : 0 < res.remaining_divisor_ := h5 hd
  simp only [FixedRational.from_fraction, if_neg hdD, h] at herr
  by_cases hrd1 : res.remaining_divisor_ = 1
  · exfalso
    simp [hrd1, PartialDivisionResult.full_division] at herr
  · simp [hrd1] at herr
    have he : e = unrepresentable_operation_error.make
        "Inexact construction of a FixedRational"
        res.partial_result_ res.remaining_divisor_ := herr.symm
    have hgcd1 : gcd res.partial_result_ res.remaining_divisor_ = 1 := by
      rw [gcd_eq_intGcd, h4]
      rfl
    have hfix : e.get_minimum_fix_factor =
        res.remaining_divisor_.tdiv (gcd res.partial_result_ res.remaining_divisor_) := by
      rw [he]
      rfl
    have hfix2 : e.get_minimum_fix_factor = res.remaining_divisor_ := by
      rw [hfix, hgcd1, Int.tdiv_one]
    have hiff : ∀ m : Int, 0 < m →
        ((∃ x, FixedRational.from_fraction (m * D) true n d = some (Except.ok x)) ↔
          e.get_minimum_fix_factor ∣ m) := by
      intro m hm
      rw [hfix2]
      rw [from_fraction_ok_iff_dvd (m * D) n d (mul_pos hm hD) hd]
      have harr : n * (m * D) = (n * D) * m := by ring
      rw [harr]
      exact dvd_iff_remaining_dvd res.partial_result_ res.remaining_divisor_ d (n * D) m
        (ne_of_gt hd) h3 h4
    refine ⟨⟨res, h, hfix, hfix2⟩, ?_, hiff, ?_, ?_, ?_⟩
    · rw [hfix2]
      exact hrdpos
    · refine (hiff e.get_minimum_fix_factor ?_).mpr dvd_rfl
      rw [hfix2]
      exact hrdpos
    · intro m hm hok
      exact Int.le_of_dvd hm ((hiff m hm).mp hok)
    · exact ⟨⟨"Inexact construction of a FixedRational", 17⟩, from_fraction_12_3_17, rfl⟩

/-- Witness for C3 at the concrete input `D = 12`, `n = 3`, `d = 17`: the
raised error's fix factor 17 is positive. -/
theorem C3_witness :
    (0 : Int) < 12 ∧ (0 : Int) < 17 ∧
    0 < (⟨"Inexact construction of a FixedRational", 17⟩ :
        unrepresentable_operation_error).get_minimum_fix_factor :=
  ⟨by norm_num, by norm_num,
    (C3_fix_factor_formula_and_minimal 12 3 17 _ (by norm_num) (by norm_num)
      from_fraction_12_3_17).2.1⟩

/-- C2 counterexample: at `D = 12` with `a = 1/12` and `b` the rational
with numerator `-1` (a nonzero numerator, as the claim requires), the
throwing division raises the exactness error even though the true
quotient `-1` IS exactly representable as `(-12)/12`; moreover the
computed `PartialDivisionResult` is `{12, -1}`, whose `full_division()`
is `-12` — exact, with no truncation — although
`remaining_divisor_ = -1 ≠ 1`.  Both directions of the claimed
equivalences fail for a negative divisor numerator. -/
theorem C2_counterexample :
    (⟨-1⟩ : FixedRational 12).numerator_ ≠ 0 ∧
    (∃ e, FixedRational.div 12 true ⟨1⟩ ⟨-1⟩ = some (Except.error e)) ∧
    ((1 : ℚ) / (12 : ℚ)) / (((-1 : Int) : ℚ) / (12 : ℚ)) =
      ((-12 : Int) : ℚ) / (12 : ℚ) ∧
    partial_division_seq [1, 12] (-1) = some ⟨12, -1⟩ ∧
    (⟨12, -1⟩ : PartialDivisionResult).full_division = some (-12) ∧
    ((-12 : Int) : ℚ) = ((12 : Int) : ℚ) / ((-1 : Int) : ℚ) := by
  refine ⟨by decide,
    ⟨⟨"Inexact operation in FixedRational / FixedRational", -1⟩, ?_⟩,
    by norm_num, ?_, ?_, by norm_num⟩
  · simp [FixedRational.div, partial_division_seq, partial_division_fold, partial_division,
      gcd_eq_intGcd, unrepresentable_operation_error.make,
      PartialDivisionResult.full_division]
  · simp [partial_division_seq, partial_division_fold, partial_division, gcd_eq_intGcd]
  · simp [PartialDivisionResult.full_division]

/-- C2 (amended): for a POSITIVE right-hand numerator, throwing same-type
division raises the exactness error iff the true quotient of the two
represented values is not exactly representable as `n/D` for any integer
`n`; and the computed `PartialDivisionResult` has an exact
(truncation-free) `full_division()` iff `remaining_divisor_ = 1`. -/
theorem C2_div_error_iff_unrepresentable (D : Int) (a b : FixedRational D)
    (hD : 0 < D) (hb : 0 < b.numerator_) :
    ∃ res : PartialDivisionResult,
      partial_division_seq [a.numerator_, D] b.numerator_ = some res ∧
      ((∃ e, FixedRational.div D true a b = some (Except.error e)) ↔
        ¬ ∃ n : Int, ((a.numerator_ : ℚ) / (D : ℚ)) / ((b.numerator_ : ℚ) / (D : ℚ)) =
          (n : ℚ) / (D : ℚ)) ∧
      (res.remaining_divisor_ = 1 ↔
        ∃ q : Int, res.full_division = some q ∧
          (q : ℚ) = (res.partial_result_ : ℚ) / (res.remaining_divisor_ : ℚ)) := by
  have hbne : b.numerator_ ≠ 0 := ne_of_gt hb
  have hDne : D ≠ 0 := ne_of_gt hD
  obtain ⟨res, h, h1, h2, h3, h4, h5⟩ :=
    partial_division_seq_spec [a.numerator_, D] b.numerator_ hbne
  have hprod : ([a.numerator_, D] : List Int).prod = a.numerator_ * D := by simp
  rw [hprod] at h3
  have hrdpos : 0 < res.remaining_divisor_ := h5 hb
  have herr_iff : (∃ e, FixedRational.div D true a b = some (Except.error e)) ↔
      res.remaining_divisor_ ≠ 1 := by
    by_cases hrd1 : res.remaining_divisor_ = 1
    · constructor
      · rintro ⟨e, he⟩
        simp only [FixedRational.div, h] at he
        simp [hrd1, PartialDivisionResult.full_division] at he
      · intro hc
        exact absurd hrd1 hc
    · refine ⟨fun _ => hrd1, fun _ =>
        ⟨unrepresentable_operation_error.make
          "Inexact operation in FixedRational / FixedRational"
          res.partial_result_ res.remaining_divisor_, ?_⟩⟩
      simp only [FixedRational.div, h]
      simp [hrd1]
  have hrep_iff : (∃ n : Int,
      ((a.numerator_ : ℚ) / (D : ℚ)) / ((b.numerator_ : ℚ) / (D : ℚ)) =
        (n : ℚ) / (D : ℚ)) ↔ b.numerator_ ∣ a.numerator_ * D := by
    have hDq : (D : ℚ) ≠ 0 := Int.cast_ne_zero.mpr hDne
    have hbq : ((b.numerator_ : Int) : ℚ) ≠ 0 := Int.cast_ne_zero.mpr hbne
    have hsimp : ((a.numerator_ : ℚ) / (D : ℚ)) / ((b.numerator_ : ℚ) / (D : ℚ)) =
        (a.numerator_ : ℚ) / (b.numerator_ : ℚ) := by
      field_simp
    rw [hsimp]
    constructor
    · rintro ⟨n, hn⟩
      rw [div_eq_div_iff hbq hDq] at hn
      have hz : a.numerator_ * D = n * b.numerator_ := by exact_mod_cast hn
      exact ⟨n, by linarith [hz]⟩
    · rintro ⟨k, hk⟩
      refine ⟨k, ?_⟩
      rw [div_eq_div_iff hbq hDq]
      exact_mod_cast (by linarith [hk] : a.numerator_ * D = k * b.numerator_)
  have hdvd_iff := dvd_iff_remaining_dvd res.partial_result_ res.remaining_divisor_
    b.numerator_ (a.numerator_ * D) 1 hbne h3 h4
  rw [mul_one] at hdvd_iff
  have hrd_eq1 : b.numerator_ ∣ a.numerator_ * D ↔ res.remaining_divisor_ = 1 := by
    rw [hdvd_iff]
    constructor
    · intro hh
      exact Int.eq_one_of_dvd_one (le_of_lt hrdpos) hh
    · intro hh
      rw [hh]
  refine ⟨res, h, ?_, ?_⟩
  · rw [herr_iff, hrep_iff, hrd_eq1]
  · constructor
    · intro hrd1
      refine ⟨res.partial_result_.tdiv res.remaining_divisor_, ?_, ?_⟩
      · simp [PartialDivisionResult.full_division, h1]
      · rw [hrd1]
        push_cast
        simp
    · rintro ⟨q, hq, hexact⟩
      have hq2 : q = res.partial_result_.tdiv res.remaining_divisor_ := by
        simp [PartialDivisionResult.full_division, h1] at hq
        exact hq.symm
      subst hq2
      have hdvd : res.remaining_divisor_ ∣ res.partial_result_ :=
        (tdiv_exact_iff_dvd _ _ h1).mp hexact
      have hnat : res.remaining_divisor_.natAbs ∣
          Int.gcd res.partial_result_ res.remaining_divisor_ :=
        Nat.dvd_gcd (Int.natAbs_dvd_natAbs.mpr hdvd) dvd_rfl
      rw [h4] at hnat
      have hone : res.remaining_divisor_.natAbs = 1 := Nat.dvd_one.mp hnat
      omega

/-- Witness for C2 (amended) at `D = 12`, `a = 4/12`, `b = 8/12`. -/
theorem C2_witness :
    (0 : Int) < 12 ∧ 0 < (⟨8⟩ : FixedRational 12).numerator_ ∧
    ∃ res : PartialDivisionResult,
      partial_division_seq [(⟨4⟩ : FixedRational 12).numerator_, 12]
        (⟨8⟩ : FixedRational 12).numerator_ = some res ∧
      ((∃ e, FixedRational.div 12 true ⟨4⟩ ⟨8⟩ = some (Except.error e)) ↔
        ¬ ∃ n : Int, (((⟨4⟩ : FixedRational 12).numerator_ : ℚ) / (12 : ℚ)) /
          (((⟨8⟩ : FixedRational 12).numerator_ : ℚ) / (12 : ℚ)) =
            (n : ℚ) / (12 : ℚ)) ∧
      (res.remaining_divisor_ = 1 ↔
        ∃ q : Int, res.full_division = some q ∧
          (q : ℚ) = (res.partial_result_ : ℚ) / (res.remaining_divisor_ : ℚ)) :=
  ⟨by norm_num, by decide,
    C2_div_error_iff_unrepresentable 12 ⟨4⟩ ⟨8⟩ (by norm_num) (by decide)⟩

/-- C6: at `D = 12` (throwing), `from_fraction(1,3) = 4/12` and
`from_fraction(2,3) = 8/12`, and their product raises the
operation-inexact error with `minimum_fix_factor() = 3`; at `D = 36` the
same operands are `12/36` and `24/36`, the product succeeds, and it
equals `from_fraction(2,9) = 8/36`. -/
theorem C6_mul_example :
    FixedRational.from_fraction 12 true 1 3 = some (Except.ok ⟨4⟩) ∧
    FixedRational.from_fraction 12 true 2 3 = some (Except.ok ⟨8⟩) ∧
    (∃ e, FixedRational.mul 12 true ⟨4⟩ ⟨8⟩ = some (Except.error e) ∧
      e.get_minimum_fix_factor = 3) ∧
    FixedRational.from_fraction 36 true 1 3 = some (Except.ok ⟨12⟩) ∧
    FixedRational.from_fraction 36 true 2 3 = some (Except.ok ⟨24⟩) ∧
    FixedRational.mul 36 true ⟨12⟩ ⟨24⟩ = some (Except.ok ⟨8⟩) ∧
    FixedRational.from_fraction 36 true 2 9 = some (Except.ok ⟨8⟩) := by
  refine ⟨?_, ?_,
    ⟨⟨"Inexact operation in FixedRational * FixedRational", 3⟩, ?_, rfl⟩,
    ?_, ?_, ?_, ?_⟩ <;>
    simp [FixedRational.from_fraction, FixedRational.mul, partial_division_seq,
      partial_division_fold, partial_division, gcd_eq_intGcd,
      unrepresentable_operation_error.make, PartialDivisionResult.full_division] <;>
    decide

/-- C10: dividing a nonzero integer by the zero-valued rational (throwing
mode) performs no integer division by zero (every `partial_division` step
is defined: the embedding would return `none` on a zero division); the
fold ends with `remaining_divisor_ = 0`, the operation raises
`unrepresentable_operation_error`, and the raised error's
`get_minimum_fix_factor()` is 0. -/
theorem C10_int_div_zero_rational (D l : Int) (hD : 0 < D) (hl : l ≠ 0) :
    ∃ res : PartialDivisionResult, ∃ e : unrepresentable_operation_error,
      partial_division_seq [l, D, D] 0 = some res ∧
      res.remaining_divisor_ = 0 ∧
      FixedRational.int_div D true l ⟨0⟩ = some (Except.error e) ∧
      e.get_minimum_fix_factor = 0 := by
  have hgl : gcd l 0 ≠ 0 := by
    rw [gcd_eq_intGcd]
    simpa [Int.gcd] using hl
  have hgD : gcd D 0 ≠ 0 := by
    rw [gcd_eq_intGcd]
    simpa [Int.gcd] using ne_of_gt hD
  have hseq : partial_division_seq [l, D, D] 0 =
      some ⟨D.tdiv (gcd D 0) * (D.tdiv (gcd D 0) * (l.tdiv (gcd l 0) * 1)), 0⟩ := by
    simp only [partial_division_seq, partial_division_fold, partial_division,
      if_neg hgl, if_neg hgD, Int.zero_tdiv]
  refine ⟨⟨D.tdiv (gcd D 0) * (D.tdiv (gcd D 0) * (l.tdiv (gcd l 0) * 1)), 0⟩,
    unrepresentable_operation_error.make "Inexact operation in IntT / FixedRational"
      (D.tdiv (gcd D 0) * (D.tdiv (gcd D 0) * (l.tdiv (gcd l 0) * 1))) 0,
    hseq, rfl, ?_, ?_⟩
  · simp only [FixedRational.int_div]
    rw [hseq]
    simp
  · simp [unrepresentable_operation_error.make,
      unrepresentable_operation_error.get_minimum_fix_factor, Int.zero_tdiv]

/-- Witness for C10 at `D = 12`, `l = 5`. -/
theorem C10_witness :
    (0 : Int) < 12 ∧ (5 : Int) ≠ 0 ∧
    ∃ res : PartialDivisionResult, ∃ e : unrepresentable_operation_error,
      partial_division_seq [5, 12, 12] 0 = some res ∧
      res.remaining_divisor_ = 0 ∧
      FixedRational.int_div 12 true 5 ⟨0⟩ = some (Except.error e) ∧
      e.get_minimum_fix_factor = 0 :=
  ⟨by norm_num, by norm_num, C10_int_div_zero_rational 12 5 (by norm_num) (by norm_num)⟩

/-- The spec-modelled `lcm` agrees with the mathematical `Int.lcm`. -/
theorem lcm_eq_intLcm (a b : Int) : lcm a b = (Int.lcm a b : Int) := by
  unfold lcm
  by_cases h : a = 0 ∨ b = 0
  · rw [if_pos h]
    rcases h with h | h <;> subst h <;> simp [Int.lcm, Nat.lcm]
  · rw [if_neg h]
    push_neg at h
    obtain ⟨ha, hb⟩ := h
    rw [abs_eq_natAbs, gcd_eq_intGcd, Int.natAbs_mul]
    have hcast : ∀ m n : Nat, ((m : Int)).tdiv (n : Int) = ((m / n : Nat) : Int) :=
      fun m n => rfl
    rw [hcast]
    norm_cast

theorem int_dvd_lcm_left (i j : Int) : i ∣ (Int.lcm i j : Int) :=
  Int.ofNat_dvd_right.mpr (Nat.dvd_lcm_left _ _)

theorem int_dvd_lcm_right (i j : Int) : j ∣ (Int.lcm i j : Int) :=
  Int.ofNat_dvd_right.mpr (Nat.dvd_lcm_right _ _)

/-- Invariant of folding `accumulate_fix_factor` from a positive
accumulator over violations with nonzero fix factors: the result is the
positive least common multiple of the start value and all fix factors. -/
theorem accumulate_fold_spec (es : List unrepresentable_operation_error) (r : Int)
    (hr : 0 < r) (hnz : ∀ e ∈ es, e.get_minimum_fix_factor ≠ 0) :
    0 < List.foldl (fun acc e => e.accumulate_fix_factor acc) r es ∧
    r ∣ List.foldl (fun acc e => e.accumulate_fix_factor acc) r es ∧
    (∀ e ∈ es, e.get_minimum_fix_factor ∣
      List.foldl (fun acc e => e.accumulate_fix_factor acc) r es) ∧
    (∀ m : Int, r ∣ m → (∀ e ∈ es, e.get_minimum_fix_factor ∣ m) →
      List.foldl (fun acc e => e.accumulate_fix_factor acc) r es ∣ m) := by
  induction es generalizing r with
  | nil =>
    refine ⟨hr, dvd_rfl, by simp, ?_⟩
    intro m hm _
    simpa using hm
  | cons e rest ih =>
    have hfe : e.get_minimum_fix_factor ≠ 0 := hnz e (List.mem_cons_self e rest)
    have hstep : e.accumulate_fix_factor r = (Int.lcm r e.get_minimum_fix_factor : Int) := by
      simp only [unrepresentable_operation_error.accumulate_fix_factor]
      rw [if_neg (not_le.mpr hr), lcm_eq_intLcm]
    have hpos1 : 0 < e.accumulate_fix_factor r := by
      rw [hstep, Int.lcm_def]
      exact_mod_cast Nat.lcm_pos (Int.natAbs_pos.mpr (ne_of_gt hr)) (Int.natAbs_pos.mpr hfe)
    simp only [List.foldl_cons]
    obtain ⟨ih1, ih2, ih3, ih4⟩ := ih (e.accumulate_fix_factor r) hpos1
      (fun e2 he2 => hnz e2 (List.mem_cons_of_mem e he2))
    refine ⟨ih1, ?_, ?_, ?_⟩
    · refine dvd_trans ?_ ih2
      rw [hstep]
      exact int_dvd_lcm_left r _
    · intro e2 he2
      rcases List.mem_cons.mp he2 with rfl | he2
      · refine dvd_trans ?_ ih2
        rw [hstep]
        exact int_dvd_lcm_right r _
      · exact ih3 e2 he2
    · intro m hm hall
      refine ih4 m ?_ (fun e2 he2 => hall e2 (List.mem_cons_of_mem e he2))
      rw [hstep]
      exact Int.lcm_dvd hm (hall e (List.mem_cons_self e rest))

/-- C8 (amended): `accumulate_fix_factor` first resets a nonpositive
accumulator to 1 and then folds in the violation's fix factor through
`lcm`; consequently, folding any sequence of violations whose fix factors
are all nonzero, starting from 1, yields exactly the positive least
common multiple of all the fix factors (their common multiple dividing
every other positive common multiple).  The restriction to nonzero fix
factors is forced: a fix factor 0 (possible, e.g. from dividing by the
zero rational) makes the code's fold differ from the mathematical lcm. -/
theorem C8_accumulate_fix_factor_lcm (es : List unrepresentable_operation_error)
    (hnz : ∀ e ∈ es, e.get_minimum_fix_factor ≠ 0) :
    (∀ (e : unrepresentable_operation_error) (running : Int),
      e.accumulate_fix_factor running =
        lcm (if running ≤ 0 then 1 else running) e.get_minimum_fix_factor) ∧
    0 < List.foldl (fun acc e => e.accumulate_fix_factor acc) 1 es ∧
    (∀ e ∈ es, e.get_minimum_fix_factor ∣
      List.foldl (fun acc e => e.accumulate_fix_factor acc) 1 es) ∧
    (∀ m : Int, 0 < m → (∀ e ∈ es, e.get_minimum_fix_factor ∣ m) →
      List.foldl (fun acc e => e.accumulate_fix_factor acc) 1 es ∣ m) := by
  obtain ⟨h1, h2, h3, h4⟩ := accumulate_fold_spec es 1 one_pos hnz
  exact ⟨fun e running => rfl, h1, h3, fun m hm hall => h4 m (one_dvd m) hall⟩

/-- C8 counterexample: the violation raised by `5 / (0/12)` has fix
factor 0; folding it and a violation with fix factor 3 from 1, the code
returns 3, but 3 is not even a common multiple of the two fix factors
(0 does not divide 3), so the fold does NOT equal the least common
multiple of all the fix factors (which is 0): the claim's unrestricted
lcm equation is false. -/
theorem C8_counterexample :
    ∃ e0 : unrepresentable_operation_error,
      FixedRational.int_div 12 true 5 ⟨0⟩ = some (Except.error e0) ∧
      e0.get_minimum_fix_factor = 0 ∧
      List.foldl (fun acc e => e.accumulate_fix_factor acc) 1 [e0, ⟨"t", 3⟩] = 3 ∧
      ¬ (e0.get_minimum_fix_factor ∣
        List.foldl (fun acc e => e.accumulate_fix_factor acc) 1 [e0, ⟨"t", 3⟩]) := by
  refine ⟨⟨"Inexact operation in IntT / FixedRational", 0⟩, ?_, rfl, ?_, ?_⟩
  · simp [FixedRational.int_div, partial_division_seq, partial_division_fold,
      partial_division, gcd_eq_intGcd, unrepresentable_operation_error.make,
      PartialDivisionResult.full_division]
  · simp [unrepresentable_operation_error.accumulate_fix_factor,
      unrepresentable_operation_error.get_minimum_fix_factor, lcm_eq_intLcm, Int.lcm]
  · have heval : List.foldl (fun acc e => e.accumulate_fix_factor acc) 1
        [(⟨"Inexact operation in IntT / FixedRational", 0⟩ :
          unrepresentable_operation_error), ⟨"t", 3⟩] = 3 := by
      simp [unrepresentable_operation_error.accumulate_fix_factor,
        unrepresentable_operation_error.get_minimum_fix_factor, lcm_eq_intLcm, Int.lcm]
    rw [heval]
    intro hdvd
    have hz : (0 : Int) ∣ 3 := hdvd
    exact absurd (zero_dvd_iff.mp hz) (by norm_num)

/-- Witness for C8 (amended) with the violations carrying fix factors 3
and 4: the folded accumulator is positive. -/
theorem C8_witness :
    (∀ e ∈ [(⟨"a", 3⟩ : unrepresentable_operation_error), ⟨"b", 4⟩],
      e.get_minimum_fix_factor ≠ 0) ∧
    0 < List.foldl (fun acc e => e.accumulate_fix_factor acc) 1
      [(⟨"a", 3⟩ : unrepresentable_operation_error), ⟨"b", 4⟩] := by
  have hnz : ∀ e ∈ [(⟨"a", 3⟩ : unrepresentable_operation_error), ⟨"b", 4⟩],
      e.get_minimum_fix_factor ≠ 0 := by
    intro e he
    rcases List.mem_cons.mp he with rfl | he
    · decide
    · rcases List.mem_cons.mp he with rfl | he
      · decide
      · exact absurd he (List.not_mem_nil e)
  exact ⟨hnz, (C8_accumulate_fix_factor_lcm _ hnz).2.1⟩

/-- C4 (code bug): at the operands `l = 0/12` (zero numerator) and
`r = 0`, the claimed exact ordering is defined (`0/12 < 0` and
`0 < 0/12` are both false), but every overflow-protected mixed comparison
reaches the tie-break `partial_division({0, 12}, 0)`, whose first step
computes `gcd(0, 0) = 0` and divides by it — C++ undefined behaviour,
`none` in this embedding — so the comparisons do not return the true
ordering there.  The operators derived from `<` inherit the failure. -/
theorem C4_zero_vs_zero_comparison_undefined :
    FixedRational.lt_int 12 ⟨0⟩ 0 = none ∧
    FixedRational.int_lt 12 0 ⟨0⟩ = none ∧
    FixedRational.gt_int 12 ⟨0⟩ 0 = none ∧
    FixedRational.int_gt 12 0 ⟨0⟩ = none ∧
    FixedRational.le_int 12 ⟨0⟩ 0 = none ∧
    FixedRational.int_le 12 0 ⟨0⟩ = none ∧
    FixedRational.ge_int 12 ⟨0⟩ 0 = none ∧
    FixedRational.int_ge 12 0 ⟨0⟩ = none ∧
    gcd 0 0 = 0 ∧
    ¬ ((0 : ℚ) / (12 : ℚ) < (0 : ℚ)) ∧ ¬ ((0 : ℚ) < (0 : ℚ) / (12 : ℚ)) := by
  have hg : gcd 0 0 = 0 := by
    rw [gcd_eq_intGcd]
    simp [Int.gcd]
  have hlt : FixedRational.lt_int 12 ⟨0⟩ 0 = none := by
    simp [FixedRational.lt_int, partial_division_seq, partial_division_fold,
      partial_division, hg]
  have hil : FixedRational.int_lt 12 0 ⟨0⟩ = none := by
    simp [FixedRational.int_lt, partial_division_seq, partial_division_fold,
      partial_division, hg]
  refine ⟨hlt, hil, ?_, ?_, ?_, ?_, ?_, ?_, hg, by norm_num, by norm_num⟩
  · simpa [FixedRational.gt_int] using hil
  · simpa [FixedRational.int_gt] using hlt
  · simp [FixedRational.le_int, hil]
  · simp [FixedRational.int_le, hlt]
  · simp [FixedRational.ge_int, hlt]
  · simp [FixedRational.int_ge, hil]

end rational_geometry
